import Mathlib

/-!
# Verification of the FiPy `Variable` lazy-evaluation / dependency-tracking engine

Shallow embedding of `src/fipy/variables/variable.py` (class `Variable`):
the dirty/fresh flag (`stale`), the cached value slot (`value`), the caching
flag (`_cached` plus the class-level `_cacheAlways` / `_cacheNever` switches),
the dependency lists (`requiredVariables`, strong, and `subscribedVariables`,
weak references), and the operations `getSubscribedVariables`, `_markStale`,
`__markStale`, `_markFresh`, `setValue`, `__setitem__`, `getValue`,
`_isCached`, `cacheMe`, `dontCacheMe`, `_requires`, `_requiredBy`,
`_BinaryOperatorVariable`.

Modelling conventions:
* A node is addressed by a `Nat` identifier; a `GraphState` is the whole
  object graph (a finite arena: `numNodes` plus a node table).
* Python's `self.stale` is `0`/`1`; we model it as `Bool` (`true` = `1`).
* A weak reference (`weakref.ref(var)`) is an `Option Nat`: `some i` when the
  reference still resolves to node `i`, `none` when the referent has been
  reclaimed.  Liveness is fixed during a synchronous call, matching the
  single-threaded execution model.
* Python recursion (`_markStale` walking `subscribedVariables`) is embedded
  with an explicit fuel parameter; `none` means the fuel ran out.  A
  separate theorem shows a concrete fuel bound always suffices on finite
  graphs, which is the termination argument.
* Values are abstracted as `Int` (`numerix` array contents are out of scope
  for the claims under verification); `_setValue` / `_makeValue` unit and
  array coercions are abstracted as storing the value.
-/

abbrev Val := Int

/-- Per-node state: the attributes set up in `Variable.__init__`
(`variable.py` lines 106–124): `stale`, `_cached`, `value`,
`requiredVariables`, `subscribedVariables` (list of weak references). -/
structure NodeState where
  stale : Bool
  cached : Bool
  value : Option Val
  requiredVariables : List Nat
  subscribedVariables : List (Option Nat)
  deriving Repr, DecidableEq, Inhabited

/-- The whole object graph: a finite arena of nodes.  Identifiers `≥ numNodes`
denote no allocated node and map to the default (fresh, unconnected) record. -/
structure GraphState where
  numNodes : Nat
  node : Nat → NodeState

/-- Build a graph from an explicit list of node records. -/
def mkGraph (l : List NodeState) : GraphState :=
  ⟨l.length, fun n => l.getD n default⟩

/-- Update one node's record in place (Python attribute mutation). -/
def updateNode (s : GraphState) (n : Nat) (f : NodeState → NodeState) : GraphState :=
  { s with node := fun m => if m = n then f (s.node m) else s.node m }

/-- Embeds `self.stale = 1` (part of `_markStale`, line 676). -/
def setStaleFlag (s : GraphState) (n : Nat) : GraphState :=
  updateNode s n (fun c => { c with stale := true })

/-- Embeds `self.stale = 0` (part of `_markFresh`, line 671). -/
def setFreshFlag (s : GraphState) (n : Nat) : GraphState :=
  updateNode s n (fun c => { c with stale := false })

/-- Embeds `self._cached = b` (`cacheMe` line 487 / `dontCacheMe` line 493). -/
def setCachedFlag (s : GraphState) (n : Nat) (b : Bool) : GraphState :=
  updateNode s n (fun c => { c with cached := b })

/-- Embeds `self._setValue(value=v)` (line 498), abstracted to storing the value
(the `_makeValue` unit/array coercions are out of scope for the claims). -/
def setValueSlot (s : GraphState) (n : Nat) (v : Option Val) : GraphState :=
  updateNode s n (fun c => { c with value := v })

/-- Embeds `Variable.getSubscribedVariables` (lines 654–657):
filters `self.subscribedVariables` down to the weak references that still
resolve, stores the compacted list back, and returns it. -/
def getSubscribedVariables (s : GraphState) (n : Nat) : List (Option Nat) × GraphState :=
  let live := (s.node n).subscribedVariables.filter (fun w => w.isSome)
  (live, updateNode s n (fun c => { c with subscribedVariables := live }))

/-- Embeds `Variable._markStale` (lines 674–677):
`if not self.stale: self.stale = 1; self.__markStale()`, with the
`__markStale` body (lines 659–668) inlined as the fold over
`self.getSubscribedVariables()`:
`for subscriber in ...: if subscriber() is not None:
subscriber()._markStale()`.
The `fuel` parameter bounds the Python call-stack depth; `none` = fuel
exhausted (a concrete fuel bound is proven sufficient on every finite
well-formed graph further below). -/
def markStaleFuel : Nat → GraphState → Nat → Option GraphState
  | 0, _, _ => none
  | fuel + 1, s, n =>
    if (s.node n).stale then some s
    else
      let p := getSubscribedVariables (setStaleFlag s n) n
      p.1.foldlM (fun st w =>
        match w with
        | none => some st
        | some m => markStaleFuel fuel st m) p.2

/-- The loop of `Variable.__markStale` (lines 659–668) in explicit
recursive form (`markStaleFuel_succ` relates the two): iterate the
compacted weak-reference list, recursing into each subscriber that still
resolves. -/
def markStaleLoop (fuel : Nat) (s : GraphState) (subs : List (Option Nat)) : Option GraphState :=
  match subs with
  | [] => some s
  | none :: rest => markStaleLoop fuel s rest
  | some m :: rest =>
    match markStaleFuel fuel s m with
    | none => none
    | some s' => markStaleLoop fuel s' rest

theorem markStaleLoop_eq_foldlM (fuel : Nat) :
    ∀ (l : List (Option Nat)) (s : GraphState),
      l.foldlM (fun st w =>
        match w with
        | none => some st
        | some m => markStaleFuel fuel st m) s = markStaleLoop fuel s l := by
  intro l
  induction l with
  | nil =>
    intro s
    rfl
  | cons w rest ih =>
    intro s
    cases w with
    | none =>
      rw [List.foldlM_cons, markStaleLoop]
      simpa using ih s
    | some m =>
      rw [List.foldlM_cons, markStaleLoop]
      show (markStaleFuel fuel s m >>= fun t =>
        List.foldlM (fun st w =>
          match w with
          | none => some st
          | some m => markStaleFuel fuel st m) t rest) = _
      cases hm : markStaleFuel fuel s m with
      | none => rfl
      | some t => simpa using ih t

/-- The defining equation of `_markStale` at positive fuel, stated through
`markStaleLoop`. -/
theorem markStaleFuel_succ (fuel : Nat) (s : GraphState) (n : Nat) :
    markStaleFuel (fuel + 1) s n =
      if (s.node n).stale then some s
      else markStaleLoop fuel (getSubscribedVariables (setStaleFlag s n) n).2
        (getSubscribedVariables (setStaleFlag s n) n).1 := by
  rw [markStaleFuel, markStaleLoop_eq_foldlM]

/-- Embeds `Variable._markFresh` (lines 670–672):
`self.stale = 0; self.__markStale()` — clears the node's own flag and then
propagates staleness to the live subscribers. -/
def markFresh (fuel : Nat) (s : GraphState) (n : Nat) : Option GraphState :=
  let s1 := setFreshFlag s n
  let p := getSubscribedVariables s1 n
  markStaleLoop fuel p.2 p.1

/-- Embeds `Variable.setValue` (lines 542–585), in the `where=None` branch: store
the new value and call `self._markFresh()`.  (The masked branch additionally
reads `self.getValue()` to keep unmasked elements; the mask arithmetic is
out of scope for the staleness claims.) -/
def setValue (fuel : Nat) (s : GraphState) (n : Nat) (v : Val) : Option GraphState :=
  markFresh fuel (setValueSlot s n (some v)) n

/-- Embeds `Variable.__setitem__` (lines 425–429) / `Variable.put` (lines 434–439)
after the value slot is materialised: mutate `self.value` in place, then
`self._markFresh()`.  (When `self.value is None`, `__setitem__` first runs
`self.getValue()` to materialise it; this definition models the mutation
step itself, with `v` the post-mutation contents.) -/
def setitemOp (fuel : Nat) (s : GraphState) (n : Nat) (v : Val) : Option GraphState :=
  markFresh fuel (setValueSlot s n (some v)) n

/-- The class-level caching switches (`variable.py` lines 47–53):
`Variable._cacheAlways` is seeded from the `FIPY_CACHE` environment variable
and the `--cache` / `--no-cache` command-line flags; `Variable._cacheNever`
is `False`.  Both are process-wide inputs, modelled as a parameter. -/
structure CacheConfig where
  cacheAlways : Bool
  cacheNever : Bool
  deriving Repr, DecidableEq

/-- Embeds `Variable._isCached` (lines 483–484):
`self._cacheAlways or (self._cached and not self._cacheNever)`. -/
def isCached (cfg : CacheConfig) (c : NodeState) : Bool :=
  cfg.cacheAlways || (c.cached && !cfg.cacheNever)

/-- Outcome of `self._calcValue()`: either a value together with the graph
state after the recompute (operand evaluation may touch other nodes), or a
raised Python exception carrying the state at raise time.  The recompute
body itself lives in the operator subclasses (`binaryOperatorVariable.py`,
outside `src/`), so it is kept abstract here; `Variable._calcValue`
(lines 651–652) for a leaf is `leafCalc` below. -/
inductive CalcResult where
  | ok (v : Val) (s : GraphState)
  | raise (s : GraphState)

/-- A recompute function: what `self._calcValue()` does for node `n`. -/
abbrev CalcFn := GraphState → Nat → CalcResult

/-- Embeds `Variable._calcValue` (lines 651–652) for a plain leaf: `return self.value`. -/
def leafCalc : CalcFn :=
  fun s n => CalcResult.ok ((s.node n).value.getD 0) s

/-- Outcome of `Variable.getValue`: a value with the post-state, a
propagated exception with the state at raise time, or fuel exhaustion of
the embedded staleness propagation. -/
inductive EvalResult where
  | ok (v : Val) (s : GraphState)
  | raise (s : GraphState)
  | fuelOut

/-- Embeds `Variable.getValue` (lines 456–481):
```
if self.stale or not self._isCached() or self.value is None:
    value = self._calcValue()
    if self._isCached():
        self._setValue(value=value)
    else:
        self._setValue(value=None)
    self._markFresh()
else:
    value = self.value
return value
```
An exception raised inside `self._calcValue()` propagates before any of the
subsequent writes happen. -/
def getValue (cfg : CacheConfig) (fuel : Nat) (calcV : CalcFn) (s : GraphState) (n : Nat) :
    EvalResult :=
  let nd := s.node n
  if nd.stale || !(isCached cfg nd) || nd.value.isNone then
    match calcV s n with
    | CalcResult.raise t => EvalResult.raise t
    | CalcResult.ok v t =>
      let t1 := if isCached cfg (t.node n) then setValueSlot t n (some v)
                else setValueSlot t n none
      match markFresh fuel t1 n with
      | none => EvalResult.fuelOut
      | some t2 => EvalResult.ok v t2
  else
    EvalResult.ok (nd.value.getD 0) s

/-- Embeds `Variable.cacheMe` (lines 486–490):
`self._cached = True; if recursive: for var in self.requiredVariables:
var.cacheMe(recursive=True)`, the loop written as a fold.  Fuel bounds
the recursion depth over the (acyclic by construction) `requires` graph. -/
def cacheMe : Nat → GraphState → Nat → Bool → Option GraphState
  | 0, _, _, _ => none
  | fuel + 1, s, n, recursive =>
    let s1 := setCachedFlag s n true
    if recursive then
      ((s1.node n).requiredVariables).foldlM (fun st m => cacheMe fuel st m true) s1
    else some s1

/-- The `for var in self.requiredVariables` loop of `cacheMe`, in explicit
recursive form (`cacheMe_succ` relates the two). -/
def cacheMeList (fuel : Nat) (s : GraphState) (l : List Nat) : Option GraphState :=
  match l with
  | [] => some s
  | m :: rest =>
    match cacheMe fuel s m true with
    | none => none
    | some t => cacheMeList fuel t rest

theorem cacheMeList_eq_foldlM (fuel : Nat) :
    ∀ (l : List Nat) (s : GraphState),
      l.foldlM (fun st m => cacheMe fuel st m true) s = cacheMeList fuel s l := by
  intro l
  induction l with
  | nil =>
    intro s
    rfl
  | cons m rest ih =>
    intro s
    rw [List.foldlM_cons, cacheMeList]
    show (cacheMe fuel s m true >>= fun t =>
      List.foldlM (fun st m => cacheMe fuel st m true) t rest) = _
    cases hm : cacheMe fuel s m true with
    | none => rfl
    | some t => simpa using ih t

/-- The defining equation of `cacheMe` at positive fuel, stated through
`cacheMeList`. -/
theorem cacheMe_succ (fuel : Nat) (s : GraphState) (n : Nat) (recursive : Bool) :
    cacheMe (fuel + 1) s n recursive =
      if recursive then
        cacheMeList fuel (setCachedFlag s n true)
          (((setCachedFlag s n true).node n).requiredVariables)
      else some (setCachedFlag s n true) := by
  rw [cacheMe, cacheMeList_eq_foldlM]

/-- Embeds `Variable.dontCacheMe` (lines 492–496):
`self._cached = False; if recursive: for var in self.requiredVariables:
var.dontCacheMe(recursive=False)` — note the recursive call passes
`recursive=False`, so the recursion stops after the direct operands. -/
def dontCacheMe (s : GraphState) (n : Nat) (recursive : Bool) : GraphState :=
  match recursive with
  | false => setCachedFlag s n false
  | true =>
    let s1 := setCachedFlag s n false
    (s1.node n).requiredVariables.foldl (fun st m => dontCacheMe st m false) s1
termination_by (cond recursive 1 0)
decreasing_by simp

/-! ## Operator-node construction layer

`Variable._BinaryOperatorVariable` (lines 895–925), `_shapeClassAndOther`
(lines 877–893), `_broadcastShape` (lines 788–797) and
`_getArithmeticBaseClass` (lines 799–819), instantiated for plain
`Variable` operands (no `_IndexVariable_`, no `CellVariable` subclassing,
so `self._getArithmeticBaseClass()` with no argument is `Variable` and the
`isinstance(self, other._getArithmeticBaseClass())` test holds whenever the
shapes broadcast).  Construction-time node/edge bookkeeping uses
`Variable._requires` / `_requiredBy` (lines 679–693) from the source. -/

abbrev Shape := List Nat

/-- A node as seen by the construction layer: its (declared) shape — the
`opShape` attribute for operator nodes, `numerix.getShape(self.value)` for
leaves — whether it is an implicit `_Constant` wrapper, the operand list
`requiredVariables`, the dependents `subscribedVariables` (all alive at
construction time, hence plain identifiers), and the dirty flag. -/
structure CNode where
  shape : Shape
  isConstant : Bool
  requiredVariables : List Nat
  subscribedVariables : List Nat
  stale : Bool
  deriving Repr, DecidableEq, Inhabited

/-- The construction-time arena of nodes. -/
structure ConsState where
  numNodes : Nat
  node : Nat → CNode

/-- Update one construction-layer node in place. -/
def updC (st : ConsState) (i : Nat) (f : CNode → CNode) : ConsState :=
  { st with node := fun m => if m = i then f (st.node m) else st.node m }

/-- Allocate a fresh node at the next free identifier. -/
def allocC (st : ConsState) (c : CNode) : Nat × ConsState :=
  (st.numNodes, ⟨st.numNodes + 1, fun m => if m = st.numNodes then c else st.node m⟩)

/-- Modelled from the spec (§4.6): `numerix._broadcastShapes` lives in
`fipy/tools/numerix.py`, which is not under `src/`; per the spec, two
dimensions combine iff they are equal or either is `1`. -/
def broadcastDim : Nat → Nat → Option Nat
  | 1, n => some n
  | m, 1 => some m
  | m, n => if m = n then some m else none

/-- Modelled from the spec (§4.6): right-aligned combination on reversed
shapes; a missing dimension acts as an implicit leading `1`. -/
def broadcastRev : List Nat → List Nat → Option (List Nat)
  | [], ys => some ys
  | xs, [] => some xs
  | x :: xs, y :: ys => do
    let d ← broadcastDim x y
    let rest ← broadcastRev xs ys
    pure (d :: rest)

/-- Modelled from the spec (§4.6): the common broadcast shape of two operand
shapes (`None` when they are incompatible), trailing dimensions compared
right-aligned. -/
def broadcastShape (a b : Shape) : Option Shape :=
  (broadcastRev a.reverse b.reverse).map List.reverse

/-- Embeds `_Constant(value=other)` (`fipy/variables/constant.py`, wrapper creation
triggered from `_BinaryOperatorVariable` lines 903–905): a fresh leaf node
holding the constant; a just-built leaf ends `Variable.__init__` with
`self._markFresh()` and no subscribers, hence `stale = false`. -/
def mkConstant (st : ConsState) (sh : Shape) : Nat × ConsState :=
  allocC st ⟨sh, true, [], [], false⟩

/-- Embeds `Variable._requires` (lines 679–684):
`self.requiredVariables.append(var); var._requiredBy(self);
self._markStale()` — with `_requiredBy` (lines 686–693) appending a weak
reference to `self` onto `var.subscribedVariables`.  The freshly built
`self` has no subscribers yet, so its `_markStale` reduces to setting the
flag. -/
def requiresEdge (st : ConsState) (selfId operand : Nat) : ConsState :=
  let st1 := updC st selfId (fun c => { c with requiredVariables := c.requiredVariables ++ [operand] })
  let st2 := updC st1 operand (fun c => { c with subscribedVariables := c.subscribedVariables ++ [selfId] })
  updC st2 selfId (fun c => { c with stale := true })

/-- Modelled from the spec (§4.4 steps 2–3): the constructor of
`operatorVariable._OperatorVariableClass` (`fipy/variables/operatorVariable.py`,
not under `src/`) allocates the new node with the declared result shape
`opShape` and registers every operand of `var=[self, other]`, in order,
through `Variable._requires` (which is under `src/`, lines 679–693); a new
node is never fresh at birth. -/
def mkOperatorNode (st : ConsState) (operands : List Nat) (opShape : Shape) : Nat × ConsState :=
  let p := allocC st ⟨opShape, false, [], [], false⟩
  (p.1, operands.foldl (fun acc v => requiresEdge acc p.1 v) p.2)

/-- The right-hand operand of a binary operator application: either an
existing node or a raw (non-`Variable`) quantity, of which only the shape
matters here. -/
inductive OperandArg where
  | node (i : Nat)
  | raw (sh : Shape)

/-- Embeds `Variable._BinaryOperatorVariable` (lines 895–925) with
`operatorClass=None`, `opShape=None` (the operator-overloading path):
wrap a non-`Variable` operand as `_Constant` (lines 903–905); resolve the
result shape and base class via `_shapeClassAndOther` (lines 907–908),
which for plain `Variable` operands reduces to the broadcast-shape check
of `_getArithmeticBaseClass`; return `NotImplemented` (here `none`) when
the shapes do not broadcast (lines 910–911), otherwise build the operator
node with `var=[self, other]` (lines 917–925). -/
def binaryOperatorVariable (st : ConsState) (selfId : Nat) (other : OperandArg) :
    Option Nat × ConsState :=
  let p := match other with
    | OperandArg.node j => (j, st)
    | OperandArg.raw sh => mkConstant st sh
  let otherId := p.1
  let st1 := p.2
  match broadcastShape ((st1.node selfId).shape) ((st1.node otherId).shape) with
  | none => (none, st1)
  | some opShape =>
    let q := mkOperatorNode st1 [selfId, otherId] opShape
    (some q.1, q.2)

/-! ## Basic state-update lemmas -/

theorem node_updateNode_self (s : GraphState) (n : Nat) (f : NodeState → NodeState) :
    (updateNode s n f).node n = f (s.node n) := by
  simp [updateNode]

theorem node_updateNode_other (s : GraphState) (n m : Nat) (f : NodeState → NodeState)
    (h : m ≠ n) : (updateNode s n f).node m = s.node m := by
  simp [updateNode, h]

theorem numNodes_updateNode (s : GraphState) (n : Nat) (f : NodeState → NodeState) :
    (updateNode s n f).numNodes = s.numNodes := rfl

/-- The state-evolution bundle of the staleness propagator: node count,
value slots, caching flags and `requires` lists are untouched; membership
of a live weak reference in a `subscribedVariables` list is preserved in
both directions (compaction only drops dead entries); stale flags are only
ever raised, never cleared. -/
def Pres (s s' : GraphState) : Prop :=
  s'.numNodes = s.numNodes ∧
  ∀ m, (s'.node m).value = (s.node m).value ∧
       (s'.node m).cached = (s.node m).cached ∧
       (s'.node m).requiredVariables = (s.node m).requiredVariables ∧
       (∀ b : Nat, some b ∈ (s'.node m).subscribedVariables ↔
          some b ∈ (s.node m).subscribedVariables) ∧
       ((s.node m).stale = true → (s'.node m).stale = true)

theorem presRefl (s : GraphState) : Pres s s := by
  refine ⟨rfl, fun m => ⟨rfl, rfl, rfl, fun b => Iff.rfl, fun h => h⟩⟩

theorem presTrans {s t u : GraphState} (h1 : Pres s t) (h2 : Pres t u) : Pres s u := by
  obtain ⟨hn1, h1⟩ := h1
  obtain ⟨hn2, h2⟩ := h2
  refine ⟨hn2.trans hn1, fun m => ?_⟩
  obtain ⟨v1, c1, r1, m1, st1⟩ := h1 m
  obtain ⟨v2, c2, r2, m2, st2⟩ := h2 m
  exact ⟨v2.trans v1, c2.trans c1, r2.trans r1,
    fun b => (m2 b).trans (m1 b), fun h => st2 (st1 h)⟩

theorem pres_setStaleFlag (s : GraphState) (n : Nat) : Pres s (setStaleFlag s n) := by
  refine ⟨rfl, fun m => ?_⟩
  by_cases h : m = n
  · subst h
    simp [setStaleFlag, node_updateNode_self]
  · simp [setStaleFlag, node_updateNode_other s n m _ h]

theorem pres_getSubscribed (s : GraphState) (n : Nat) :
    Pres s (getSubscribedVariables s n).2 := by
  refine ⟨rfl, fun m => ?_⟩
  by_cases h : m = n
  · subst h
    simp [getSubscribedVariables, node_updateNode_self, List.mem_filter]
  · simp [getSubscribedVariables, node_updateNode_other s n m _ h]

theorem getSubscribed_fst (s : GraphState) (n : Nat) :
    (getSubscribedVariables s n).1 =
      (s.node n).subscribedVariables.filter (fun w => w.isSome) := rfl

theorem mem_getSubscribed_fst {s : GraphState} {n : Nat} {b : Nat} :
    some b ∈ (getSubscribedVariables s n).1 ↔ some b ∈ (s.node n).subscribedVariables := by
  simp [getSubscribed_fst, List.mem_filter]

/-- The `_markStale` propagation only raises stale flags, compacts weak-reference
lists, and touches nothing else (see `Pres`); proven for the node entry
point and the subscriber loop simultaneously by induction on the fuel. -/
theorem pres_markStale_all (fuel : Nat) :
    (∀ s n s', markStaleFuel fuel s n = some s' → Pres s s') ∧
    (∀ l s s', markStaleLoop fuel s l = some s' → Pres s s') := by
  induction fuel with
  | zero =>
    constructor
    · intro s n s' h
      simp [markStaleFuel] at h
    · intro l
      induction l with
      | nil =>
        intro s s' h
        rw [markStaleLoop] at h
        cases h
        exact presRefl s
      | cons w rest ih =>
        intro s s' h
        cases w with
        | none =>
          rw [markStaleLoop] at h
          exact ih s s' h
        | some m =>
          rw [markStaleLoop] at h
          simp [markStaleFuel] at h
  | succ fuel ih =>
    have hnode : ∀ s n s', markStaleFuel (fuel + 1) s n = some s' → Pres s s' := by
      intro s n s' h
      rw [markStaleFuel_succ] at h
      by_cases hst : (s.node n).stale
      · rw [if_pos hst] at h
        cases h
        exact presRefl s
      · rw [if_neg hst] at h
        exact presTrans (presTrans (pres_setStaleFlag s n) (pres_getSubscribed _ n))
          (ih.2 _ _ _ h)
    refine ⟨hnode, ?_⟩
    intro l
    induction l with
    | nil =>
      intro s s' h
      rw [markStaleLoop] at h
      cases h
      exact presRefl s
    | cons w rest ihl =>
      intro s s' h
      cases w with
      | none =>
        rw [markStaleLoop] at h
        exact ihl s s' h
      | some m =>
        rw [markStaleLoop] at h
        cases hm : markStaleFuel (fuel + 1) s m with
        | none => rw [hm] at h; cases h
        | some t =>
          rw [hm] at h
          exact presTrans (hnode s m t hm) (ihl t s' h)

theorem pres_markStaleFuel {fuel : Nat} {s : GraphState} {n : Nat} {s' : GraphState}
    (h : markStaleFuel fuel s n = some s') : Pres s s' :=
  (pres_markStale_all fuel).1 s n s' h

theorem pres_markStaleLoop {fuel : Nat} {s : GraphState} {l : List (Option Nat)}
    {s' : GraphState} (h : markStaleLoop fuel s l = some s') : Pres s s' :=
  (pres_markStale_all fuel).2 l s s' h

theorem node_afterCompactStale_self (s : GraphState) (n : Nat) :
    ((getSubscribedVariables (setStaleFlag s n) n).2.node n).stale = true := by
  simp [getSubscribedVariables, setStaleFlag, node_updateNode_self]

theorem node_afterCompactStale_other {s : GraphState} {n m : Nat} (h : m ≠ n) :
    (getSubscribedVariables (setStaleFlag s n) n).2.node m = s.node m := by
  simp [getSubscribedVariables, setStaleFlag, updateNode, h]

theorem mem_afterStale_fst {s : GraphState} {n : Nat} {b : Nat} :
    some b ∈ (getSubscribedVariables (setStaleFlag s n) n).1 ↔
      some b ∈ (s.node n).subscribedVariables := by
  rw [mem_getSubscribed_fst]
  simp [setStaleFlag, node_updateNode_self]

/-- Running `_markStale(n)` leaves `n` stale (it either was already, or just got set). -/
theorem stale_markStaleFuel {fuel : Nat} {s : GraphState} {n : Nat} {s' : GraphState}
    (h : markStaleFuel fuel s n = some s') : (s'.node n).stale = true := by
  match fuel with
  | 0 => simp [markStaleFuel] at h
  | fuel + 1 =>
    rw [markStaleFuel_succ] at h
    by_cases hst : (s.node n).stale
    · rw [if_pos hst] at h
      cases h
      exact hst
    · rw [if_neg hst] at h
      exact ((pres_markStaleLoop h).2 n).2.2.2.2 (node_afterCompactStale_self s n)

/-- Running the `__markStale` loop leaves every node listed through a live
weak reference stale. -/
theorem stale_markStaleLoop_mem {fuel : Nat} {l : List (Option Nat)} :
    ∀ {s s' : GraphState} {b : Nat}, markStaleLoop fuel s l = some s' →
      some b ∈ l → (s'.node b).stale = true := by
  induction l with
  | nil =>
    intro s s' b h hb
    simp at hb
  | cons w rest ih =>
    intro s s' b h hb
    cases w with
    | none =>
      rw [markStaleLoop] at h
      rcases List.mem_cons.mp hb with h1 | h1
      · cases h1
      · exact ih h h1
    | some m =>
      rw [markStaleLoop] at h
      cases hm : markStaleFuel fuel s m with
      | none => rw [hm] at h; cases h
      | some t =>
        rw [hm] at h
        rcases List.mem_cons.mp hb with h1 | h1
        · injection h1 with h1
          subst h1
          exact ((pres_markStaleLoop h).2 b).2.2.2.2 (stale_markStaleFuel hm)
        · exact ih h h1

/-- Any node whose flag goes fresh→stale during a `_markStale` propagation has
all of the nodes its live weak references point to stale afterwards: the
propagation never abandons a node it marked before notifying the node's own
subscribers. -/
theorem newstale_closed_all (fuel : Nat) :
    (∀ s n s', markStaleFuel fuel s n = some s' → ∀ m, (s.node m).stale = false →
      (s'.node m).stale = true → ∀ b, some b ∈ (s.node m).subscribedVariables →
      (s'.node b).stale = true) ∧
    (∀ l s s', markStaleLoop fuel s l = some s' → ∀ m, (s.node m).stale = false →
      (s'.node m).stale = true → ∀ b, some b ∈ (s.node m).subscribedVariables →
      (s'.node b).stale = true) := by
  induction fuel with
  | zero =>
    constructor
    · intro s n s' h
      simp [markStaleFuel] at h
    · intro l
      induction l with
      | nil =>
        intro s s' h m hm1 hm2 b hb
        rw [markStaleLoop] at h
        cases h
        rw [hm1] at hm2
        cases hm2
      | cons w rest ih =>
        intro s s' h
        cases w with
        | none =>
          rw [markStaleLoop] at h
          exact ih s s' h
        | some m0 =>
          rw [markStaleLoop] at h
          simp [markStaleFuel] at h
  | succ fuel ih =>
    have hnode : ∀ s n s', markStaleFuel (fuel + 1) s n = some s' → ∀ m,
        (s.node m).stale = false → (s'.node m).stale = true → ∀ b,
        some b ∈ (s.node m).subscribedVariables → (s'.node b).stale = true := by
      intro s n s' h m hm1 hm2 b hb
      rw [markStaleFuel_succ] at h
      by_cases hst : (s.node n).stale
      · rw [if_pos hst] at h
        cases h
        rw [hm1] at hm2
        cases hm2
      · rw [if_neg hst] at h
        by_cases hmn : m = n
        · subst hmn
          exact stale_markStaleLoop_mem h (mem_afterStale_fst.mpr hb)
        · have hm1' : ((getSubscribedVariables (setStaleFlag s n) n).2.node m).stale = false := by
            rw [node_afterCompactStale_other hmn]
            exact hm1
          have hb' : some b ∈
              ((getSubscribedVariables (setStaleFlag s n) n).2.node m).subscribedVariables := by
            rw [node_afterCompactStale_other hmn]
            exact hb
          exact ih.2 _ _ _ h m hm1' hm2 b hb'
    refine ⟨hnode, ?_⟩
    intro l
    induction l with
    | nil =>
      intro s s' h m hm1 hm2 b hb
      rw [markStaleLoop] at h
      cases h
      rw [hm1] at hm2
      cases hm2
    | cons w rest ihl =>
      intro s s' h m hm1 hm2 b hb
      cases w with
      | none =>
        rw [markStaleLoop] at h
        exact ihl s s' h m hm1 hm2 b hb
      | some k =>
        rw [markStaleLoop] at h
        cases hk : markStaleFuel (fuel + 1) s k with
        | none => rw [hk] at h; cases h
        | some t =>
          rw [hk] at h
          by_cases hmt : (t.node m).stale = true
          · exact ((pres_markStaleLoop h).2 b).2.2.2.2 (hnode s k t hk m hm1 hmt b hb)
          · have hb' : some b ∈ (t.node m).subscribedVariables :=
              (((pres_markStaleFuel hk).2 m).2.2.2.1 b).mpr hb
            exact ihl t s' h m (by simpa using hmt) hm2 b hb'

/-! ## Reachability along live `requiredBy` edges -/

/-- Reflexive-transitive reachability along live (still-resolving) weak
`subscribedVariables` references: the paths a `_markStale` propagation can
follow. -/
inductive ReachO (s : GraphState) : Nat → Nat → Prop where
  | refl (a : Nat) : ReachO s a a
  | cons {a c m : Nat} : some c ∈ (s.node a).subscribedVariables → ReachO s c m →
      ReachO s a m

/-- Strict reachability (at least one live `requiredBy` edge). -/
def Reach (s : GraphState) (n m : Nat) : Prop :=
  ∃ b, some b ∈ (s.node n).subscribedVariables ∧ ReachO s b m

/-- The stale-closure invariant the engine maintains (spec §3, data-model
invariant 3): each stale node's live dependents are stale. -/
def StaleClosed (s : GraphState) : Prop :=
  ∀ a b, (s.node a).stale = true → some b ∈ (s.node a).subscribedVariables →
    (s.node b).stale = true

/-- Stale closure away from one distinguished node (the node `_markFresh`
just cleared). -/
def StaleClosedExcept (s : GraphState) (n : Nat) : Prop :=
  ∀ a b, (s.node a).stale = true → some b ∈ (s.node a).subscribedVariables → b ≠ n →
    (s.node b).stale = true

/-- Reachability transports along any state change preserving live-edge
membership. -/
theorem ReachO_of_memIff {s t : GraphState}
    (hiff : ∀ m b, some b ∈ (t.node m).subscribedVariables ↔
      some b ∈ (s.node m).subscribedVariables) :
    ∀ {x y : Nat}, ReachO t x y → ReachO s x y := by
  intro x y h
  induction h with
  | refl a => exact ReachO.refl a
  | cons hmem _ ih => exact ReachO.cons ((hiff _ _).mp hmem) ih

/-- From a stale node (or from the distinguished node, all of whose live
subscribers are stale), every reachable node other than the distinguished
one is stale, given closure away from the distinguished node. -/
theorem closedExcept_reach {t : GraphState} {n : Nat}
    (hce : StaleClosedExcept t n)
    (hsubs : ∀ c, some c ∈ (t.node n).subscribedVariables → (t.node c).stale = true) :
    ∀ {x m : Nat}, ReachO t x m → ((t.node x).stale = true ∨ x = n) → m ≠ n →
      (t.node m).stale = true := by
  intro x m h
  induction h with
  | refl a =>
    intro hx hm
    rcases hx with hx | hx
    · exact hx
    · exact absurd hx hm
  | @cons a c m' hmem hr ih =>
    intro hx hm
    refine ih ?_ hm
    rcases hx with hx | hx
    · by_cases hcn : c = n
      · exact Or.inr hcn
      · exact Or.inl (hce _ _ hx hmem hcn)
    · subst hx
      exact Or.inl (hsubs _ hmem)

/-- Newly marked nodes of a `_markStale` propagation are reachable from the
entry node via live edges (node form) / from a listed live reference
(loop form). -/
theorem marks_reach_all (fuel : Nat) :
    (∀ s n s', markStaleFuel fuel s n = some s' → ∀ m, (s.node m).stale = false →
      (s'.node m).stale = true → ReachO s n m) ∧
    (∀ l s s', markStaleLoop fuel s l = some s' → ∀ m, (s.node m).stale = false →
      (s'.node m).stale = true → ∃ k, some k ∈ l ∧ ReachO s k m) := by
  induction fuel with
  | zero =>
    constructor
    · intro s n s' h
      simp [markStaleFuel] at h
    · intro l
      induction l with
      | nil =>
        intro s s' h m hm1 hm2
        rw [markStaleLoop] at h
        cases h
        rw [hm1] at hm2
        cases hm2
      | cons w rest ih =>
        intro s s' h
        cases w with
        | none =>
          rw [markStaleLoop] at h
          intro m hm1 hm2
          obtain ⟨k, hk, hr⟩ := ih s s' h m hm1 hm2
          exact ⟨k, List.mem_cons_of_mem _ hk, hr⟩
        | some m0 =>
          rw [markStaleLoop] at h
          simp [markStaleFuel] at h
  | succ fuel ih =>
    have hnode : ∀ s n s', markStaleFuel (fuel + 1) s n = some s' → ∀ m,
        (s.node m).stale = false → (s'.node m).stale = true → ReachO s n m := by
      intro s n s' h m hm1 hm2
      rw [markStaleFuel_succ] at h
      by_cases hst : (s.node n).stale
      · rw [if_pos hst] at h
        cases h
        rw [hm1] at hm2
        cases hm2
      · rw [if_neg hst] at h
        by_cases hmn : m = n
        · subst hmn
          exact ReachO.refl m
        · have hm1' : ((getSubscribedVariables (setStaleFlag s n) n).2.node m).stale = false := by
            rw [node_afterCompactStale_other hmn]
            exact hm1
          obtain ⟨k, hkmem, hkreach⟩ := ih.2 _ _ _ h m hm1' hm2
          have hiff : ∀ m2 b, some b ∈
              ((getSubscribedVariables (setStaleFlag s n) n).2.node m2).subscribedVariables ↔
              some b ∈ (s.node m2).subscribedVariables := fun m2 b =>
            Iff.trans (((pres_getSubscribed (setStaleFlag s n) n).2 m2).2.2.2.1 b)
              (((pres_setStaleFlag s n).2 m2).2.2.2.1 b)
          exact ReachO.cons (mem_afterStale_fst.mp hkmem) (ReachO_of_memIff hiff hkreach)
    refine ⟨hnode, ?_⟩
    intro l
    induction l with
    | nil =>
      intro s s' h m hm1 hm2
      rw [markStaleLoop] at h
      cases h
      rw [hm1] at hm2
      cases hm2
    | cons w rest ihl =>
      intro s s' h m hm1 hm2
      cases w with
      | none =>
        rw [markStaleLoop] at h
        obtain ⟨k, hk, hr⟩ := ihl s s' h m hm1 hm2
        exact ⟨k, List.mem_cons_of_mem _ hk, hr⟩
      | some k0 =>
        rw [markStaleLoop] at h
        cases hk : markStaleFuel (fuel + 1) s k0 with
        | none => rw [hk] at h; cases h
        | some t =>
          rw [hk] at h
          by_cases hmt : (t.node m).stale = true
          · exact ⟨k0, List.mem_cons_self _ _, hnode s k0 t hk m hm1 hmt⟩
          · have hm1' : (t.node m).stale = false := by simpa using hmt
            obtain ⟨k, hkmem, hkreach⟩ := ihl t s' h m hm1' hm2
            refine ⟨k, List.mem_cons_of_mem _ hkmem, ?_⟩
            exact ReachO_of_memIff (fun m b => ((pres_markStaleFuel hk).2 m).2.2.2.1 b) hkreach

/-! ## `_markFresh` analysis -/

theorem markFresh_def (fuel : Nat) (s : GraphState) (n : Nat) :
    markFresh fuel s n =
      markStaleLoop fuel (getSubscribedVariables (setFreshFlag s n) n).2
        (getSubscribedVariables (setFreshFlag s n) n).1 := rfl

theorem node_afterCompactFresh_self (s : GraphState) (n : Nat) :
    ((getSubscribedVariables (setFreshFlag s n) n).2.node n).stale = false := by
  simp [getSubscribedVariables, setFreshFlag, node_updateNode_self]

theorem node_afterCompactFresh_other {s : GraphState} {n m : Nat} (h : m ≠ n) :
    (getSubscribedVariables (setFreshFlag s n) n).2.node m = s.node m := by
  simp [getSubscribedVariables, setFreshFlag, updateNode, h]

theorem mem_afterFresh_fst {s : GraphState} {n b : Nat} :
    some b ∈ (getSubscribedVariables (setFreshFlag s n) n).1 ↔
      some b ∈ (s.node n).subscribedVariables := by
  rw [mem_getSubscribed_fst]
  simp [setFreshFlag, node_updateNode_self]

theorem memIff_afterFresh (s : GraphState) (n : Nat) :
    ∀ m b, some b ∈
      ((getSubscribedVariables (setFreshFlag s n) n).2.node m).subscribedVariables ↔
      some b ∈ (s.node m).subscribedVariables := by
  intro m b
  by_cases h : m = n
  · subst h
    simp [getSubscribedVariables, setFreshFlag, node_updateNode_self, List.mem_filter]
  · rw [node_afterCompactFresh_other h]

/-- The call `_markFresh` preserves live-edge membership everywhere. -/
theorem markFresh_memIff {fuel : Nat} {s : GraphState} {n : Nat} {s' : GraphState}
    (h : markFresh fuel s n = some s') :
    ∀ m b, some b ∈ (s'.node m).subscribedVariables ↔
      some b ∈ (s.node m).subscribedVariables := by
  rw [markFresh_def] at h
  intro m b
  exact Iff.trans (((pres_markStaleLoop h).2 m).2.2.2.1 b) (memIff_afterFresh s n m b)

/-- The call `_markFresh` never touches value slots, caching flags or `requires`
lists — of any node. -/
theorem markFresh_frame {fuel : Nat} {s : GraphState} {n : Nat} {s' : GraphState}
    (h : markFresh fuel s n = some s') :
    ∀ m, (s'.node m).value = (s.node m).value ∧
      (s'.node m).cached = (s.node m).cached ∧
      (s'.node m).requiredVariables = (s.node m).requiredVariables := by
  rw [markFresh_def] at h
  intro m
  have hp := (pres_markStaleLoop h).2 m
  by_cases hm : m = n
  · subst hm
    refine ⟨hp.1.trans ?_, hp.2.1.trans ?_, hp.2.2.1.trans ?_⟩ <;>
      simp [getSubscribedVariables, setFreshFlag, node_updateNode_self]
  · rw [node_afterCompactFresh_other hm] at hp
    exact ⟨hp.1, hp.2.1, hp.2.2.1⟩

/-- The call `_markFresh(n)` never clears the stale flag of any node other than `n`. -/
theorem markFresh_mono_other {fuel : Nat} {s : GraphState} {n : Nat} {s' : GraphState}
    (h : markFresh fuel s n = some s') :
    ∀ m, m ≠ n → (s.node m).stale = true → (s'.node m).stale = true := by
  rw [markFresh_def] at h
  intro m hm hst
  refine ((pres_markStaleLoop h).2 m).2.2.2.2 ?_
  rw [node_afterCompactFresh_other hm]
  exact hst

/-- After `_markFresh(n)`, every node a live weak reference of `n` points to
is stale. -/
theorem markFresh_subs_stale {fuel : Nat} {s : GraphState} {n : Nat} {s' : GraphState}
    (h : markFresh fuel s n = some s') :
    ∀ b, some b ∈ (s.node n).subscribedVariables → (s'.node b).stale = true := by
  rw [markFresh_def] at h
  intro b hb
  exact stale_markStaleLoop_mem h (mem_afterFresh_fst.mpr hb)

/-- After `_markFresh(n)` from a stale-closed state, stale closure holds
everywhere except possibly at `n` itself (the node just cleared). -/
theorem markFresh_closedExcept {fuel : Nat} {s : GraphState} {n : Nat} {s' : GraphState}
    (hc : StaleClosed s) (h : markFresh fuel s n = some s') : StaleClosedExcept s' n := by
  rw [markFresh_def] at h
  have hmid : StaleClosedExcept (getSubscribedVariables (setFreshFlag s n) n).2 n := by
    intro a b ha hb hbn
    by_cases han : a = n
    · subst han
      rw [node_afterCompactFresh_self] at ha
      cases ha
    · rw [node_afterCompactFresh_other han] at ha hb
      rw [node_afterCompactFresh_other hbn]
      exact hc a b ha hb
  intro a b ha hb hbn
  have hbmid : some b ∈
      ((getSubscribedVariables (setFreshFlag s n) n).2.node a).subscribedVariables :=
    (((pres_markStaleLoop h).2 a).2.2.2.1 b).mp hb
  by_cases hmida : ((getSubscribedVariables (setFreshFlag s n) n).2.node a).stale = true
  · exact ((pres_markStaleLoop h).2 b).2.2.2.2 (hmid a b hmida hbmid hbn)
  · exact (newstale_closed_all fuel).2 _ _ _ h a (by simpa using hmida) ha b hbmid

/-- Core of propagation completeness: from a stale-closed state,
`_markFresh(n)` leaves every node strictly reachable from `n` via live
`requiredBy` edges (other than `n` itself) stale. -/
theorem markFresh_reach_stale {fuel : Nat} {s : GraphState} {n : Nat} {s' : GraphState}
    (hc : StaleClosed s) (h : markFresh fuel s n = some s') :
    ∀ m, Reach s n m → m ≠ n → (s'.node m).stale = true := by
  rintro m ⟨b, hbmem, hbreach⟩ hmn
  have hbst : (s'.node b).stale = true := markFresh_subs_stale h b hbmem
  have hce : StaleClosedExcept s' n := markFresh_closedExcept hc h
  have hiff := markFresh_memIff h
  have hsubs : ∀ c, some c ∈ (s'.node n).subscribedVariables → (s'.node c).stale = true :=
    fun c hcmem => markFresh_subs_stale h c ((hiff n c).mp hcmem)
  have hbreach' : ReachO s' b m :=
    ReachO_of_memIff (fun m2 b2 => (hiff m2 b2).symm) hbreach
  exact closedExcept_reach hce hsubs hbreach' (Or.inl hbst) hmn

/-- The call `_markFresh(n)` leaves `n` itself fresh provided no live dependency
cycle leads back to `n`. -/
theorem markFresh_self_fresh {fuel : Nat} {s : GraphState} {n : Nat} {s' : GraphState}
    (h : markFresh fuel s n = some s') (hacyc : ¬ Reach s n n) :
    (s'.node n).stale = false := by
  rw [markFresh_def] at h
  by_contra hst
  have hst' : (s'.node n).stale = true := by simpa using hst
  obtain ⟨k, hkmem, hkreach⟩ :=
    (marks_reach_all fuel).2 _ _ _ h n (node_afterCompactFresh_self s n) hst'
  exact hacyc ⟨k, mem_afterFresh_fst.mp hkmem,
    ReachO_of_memIff (memIff_afterFresh s n) hkreach⟩

/-! ## Termination of `_markStale` on finite graphs -/

/-- Arena well-formedness: every live weak reference of an allocated node
targets an allocated node. -/
def WF (s : GraphState) : Bool :=
  (List.range s.numNodes).all (fun n =>
    (s.node n).subscribedVariables.all (fun w =>
      match w with
      | none => true
      | some b => decide (b < s.numNodes)))

/-- Number of allocated nodes that are currently fresh: the decreasing
measure of the propagation. -/
def freshCount (s : GraphState) : Nat :=
  ((Finset.range s.numNodes).filter (fun n => (s.node n).stale = false)).card

theorem WF_spec {s : GraphState} (h : WF s = true) :
    ∀ n, n < s.numNodes → ∀ b, some b ∈ (s.node n).subscribedVariables →
      b < s.numNodes := by
  intro n hn b hb
  rw [WF, List.all_eq_true] at h
  have h1 := h n (List.mem_range.mpr hn)
  rw [List.all_eq_true] at h1
  have h2 := h1 (some b) hb
  simpa using h2

theorem WF_pres {s s' : GraphState} (hp : Pres s s') (h : WF s = true) : WF s' = true := by
  rw [WF, List.all_eq_true]
  intro n hn
  rw [List.all_eq_true]
  intro w hw
  cases w with
  | none => simp
  | some b =>
    have hn' : n < s.numNodes := by
      rw [← hp.1]
      exact List.mem_range.mp hn
    have hb : some b ∈ (s.node n).subscribedVariables := ((hp.2 n).2.2.2.1 b).mp hw
    have hbn := WF_spec h n hn' b hb
    simp [hp.1, hbn]

theorem freshCount_le_of_pres {s s' : GraphState} (hp : Pres s s') :
    freshCount s' ≤ freshCount s := by
  rw [freshCount, freshCount, hp.1]
  apply Finset.card_le_card
  intro m hm
  rw [Finset.mem_filter] at hm ⊢
  refine ⟨hm.1, ?_⟩
  by_contra hh
  have h1 : (s.node m).stale = true := by simpa using hh
  have h2 := (hp.2 m).2.2.2.2 h1
  rw [hm.2] at h2
  cases h2

theorem freshCount_setStale_lt {s : GraphState} {n : Nat} (hn : n < s.numNodes)
    (hst : (s.node n).stale = false) :
    freshCount (setStaleFlag s n) < freshCount s := by
  have hnum : (setStaleFlag s n).numNodes = s.numNodes := rfl
  rw [freshCount, freshCount, hnum]
  have hsub : (Finset.range s.numNodes).filter
        (fun m => ((setStaleFlag s n).node m).stale = false) ⊆
      (Finset.range s.numNodes).filter (fun m => (s.node m).stale = false) := by
    intro m hm
    rw [Finset.mem_filter] at hm ⊢
    refine ⟨hm.1, ?_⟩
    by_cases h : m = n
    · subst h
      rw [setStaleFlag, node_updateNode_self] at hm
      cases hm.2
    · rw [setStaleFlag, node_updateNode_other s n m _ h] at hm
      exact hm.2
  apply Finset.card_lt_card
  rw [Finset.ssubset_iff_of_subset hsub]
  refine ⟨n, ?_, ?_⟩
  · rw [Finset.mem_filter]
    exact ⟨Finset.mem_range.mpr hn, hst⟩
  · rw [Finset.mem_filter]
    rintro ⟨-, hbad⟩
    rw [setStaleFlag, node_updateNode_self] at hbad
    cases hbad

/-- Fuel one more than the number of fresh allocated nodes always suffices:
`_markStale` terminates on every finite well-formed graph (cyclic or not —
the already-stale check breaks cycles). -/
theorem markStale_fuel_sufficient (fuel : Nat) :
    (∀ s n, WF s = true → n < s.numNodes → freshCount s < fuel →
      (markStaleFuel fuel s n).isSome = true) ∧
    (∀ l s, WF s = true → (∀ b, some b ∈ l → b < s.numNodes) → freshCount s < fuel →
      (markStaleLoop fuel s l).isSome = true) := by
  induction fuel with
  | zero =>
    constructor
    · intro s n _ _ hf
      exact absurd hf (Nat.not_lt_zero _)
    · intro l s _ _ hf
      exact absurd hf (Nat.not_lt_zero _)
  | succ fuel ih =>
    have hnode : ∀ s n, WF s = true → n < s.numNodes → freshCount s < fuel + 1 →
        (markStaleFuel (fuel + 1) s n).isSome = true := by
      intro s n hwf hn hf
      rw [markStaleFuel_succ]
      by_cases hst : (s.node n).stale
      · rw [if_pos hst]
        rfl
      · rw [if_neg hst]
        have hpres : Pres s (getSubscribedVariables (setStaleFlag s n) n).2 :=
          presTrans (pres_setStaleFlag s n) (pres_getSubscribed _ n)
        have hless : freshCount (getSubscribedVariables (setStaleFlag s n) n).2 < fuel := by
          have h1 : freshCount (getSubscribedVariables (setStaleFlag s n) n).2 ≤
              freshCount (setStaleFlag s n) :=
            freshCount_le_of_pres (pres_getSubscribed _ n)
          have h2 : freshCount (setStaleFlag s n) < freshCount s :=
            freshCount_setStale_lt hn (by simpa using hst)
          omega
        apply ih.2
        · exact WF_pres hpres hwf
        · intro b hb
          have hb' : some b ∈ (s.node n).subscribedVariables := mem_afterStale_fst.mp hb
          have hbn := WF_spec hwf n hn b hb'
          have hnum := hpres.1
          omega
        · exact hless
    refine ⟨hnode, ?_⟩
    intro l
    induction l with
    | nil =>
      intro s _ _ _
      rw [markStaleLoop]
      rfl
    | cons w rest ihl =>
      intro s hwf htargets hf
      cases w with
      | none =>
        rw [markStaleLoop]
        exact ihl s hwf (fun b hb => htargets b (List.mem_cons_of_mem _ hb)) hf
      | some k =>
        rw [markStaleLoop]
        have hk : (markStaleFuel (fuel + 1) s k).isSome = true :=
          hnode s k hwf (htargets k (List.mem_cons_self _ _)) hf
        cases hkeq : markStaleFuel (fuel + 1) s k with
        | none =>
          rw [hkeq] at hk
          cases hk
        | some t =>
          show (markStaleLoop (fuel + 1) t rest).isSome = true
          have hp := pres_markStaleFuel hkeq
          apply ihl
          · exact WF_pres hp hwf
          · intro b hb
            have hbn := htargets b (List.mem_cons_of_mem _ hb)
            have hnum := hp.1
            omega
          · have hmono := freshCount_le_of_pres hp
            omega

/-! ## `cacheMe` / `dontCacheMe` analysis -/

/-- Reachability along strong `requires` edges (reflexive-transitive
closure of `requiredVariables`). -/
inductive ReqReach (s : GraphState) : Nat → Nat → Prop where
  | refl (a : Nat) : ReqReach s a a
  | cons {a c m : Nat} : c ∈ (s.node a).requiredVariables → ReqReach s c m →
      ReqReach s a m

theorem ReqReach_of_reqEq {s t : GraphState}
    (h : ∀ m, (t.node m).requiredVariables = (s.node m).requiredVariables) :
    ∀ {x y : Nat}, ReqReach s x y → ReqReach t x y := by
  intro x y hr
  induction hr with
  | refl a => exact ReqReach.refl a
  | cons hmem _ ih => exact ReqReach.cons (by rw [h]; exact hmem) ih

/-- State evolution of `cacheMe`: only caching flags change, and they are
only ever set to `True`. -/
def CachePres (s s' : GraphState) : Prop :=
  s'.numNodes = s.numNodes ∧
  ∀ m, (s'.node m).stale = (s.node m).stale ∧
       (s'.node m).value = (s.node m).value ∧
       (s'.node m).requiredVariables = (s.node m).requiredVariables ∧
       (s'.node m).subscribedVariables = (s.node m).subscribedVariables ∧
       ((s.node m).cached = true → (s'.node m).cached = true)

theorem cachePresRefl (s : GraphState) : CachePres s s :=
  ⟨rfl, fun _ => ⟨rfl, rfl, rfl, rfl, fun h => h⟩⟩

theorem cachePresTrans {s t u : GraphState} (h1 : CachePres s t) (h2 : CachePres t u) :
    CachePres s u := by
  obtain ⟨hn1, h1⟩ := h1
  obtain ⟨hn2, h2⟩ := h2
  refine ⟨hn2.trans hn1, fun m => ?_⟩
  obtain ⟨a1, b1, c1, d1, e1⟩ := h1 m
  obtain ⟨a2, b2, c2, d2, e2⟩ := h2 m
  exact ⟨a2.trans a1, b2.trans b1, c2.trans c1, d2.trans d1, fun h => e2 (e1 h)⟩

theorem cachePres_setTrue (s : GraphState) (n : Nat) : CachePres s (setCachedFlag s n true) := by
  refine ⟨rfl, fun m => ?_⟩
  by_cases h : m = n
  · subst h
    simp [setCachedFlag, node_updateNode_self]
  · simp [setCachedFlag, node_updateNode_other s n m _ h]

theorem cachePres_all (fuel : Nat) :
    (∀ s n r s', cacheMe fuel s n r = some s' → CachePres s s') ∧
    (∀ l s s', cacheMeList fuel s l = some s' → CachePres s s') := by
  induction fuel with
  | zero =>
    constructor
    · intro s n r s' h
      simp [cacheMe] at h
    · intro l
      induction l with
      | nil =>
        intro s s' h
        rw [cacheMeList] at h
        cases h
        exact cachePresRefl s
      | cons k rest ih =>
        intro s s' h
        rw [cacheMeList] at h
        simp [cacheMe] at h
  | succ fuel ih =>
    have hnode : ∀ s n r s', cacheMe (fuel + 1) s n r = some s' → CachePres s s' := by
      intro s n r s' h
      rw [cacheMe_succ] at h
      cases r with
      | false =>
        rw [if_neg (by simp)] at h
        cases h
        exact cachePres_setTrue s n
      | true =>
        rw [if_pos rfl] at h
        exact cachePresTrans (cachePres_setTrue s n) (ih.2 _ _ _ h)
    refine ⟨hnode, ?_⟩
    intro l
    induction l with
    | nil =>
      intro s s' h
      rw [cacheMeList] at h
      cases h
      exact cachePresRefl s
    | cons k rest ihl =>
      intro s s' h
      rw [cacheMeList] at h
      cases hk : cacheMe (fuel + 1) s k true with
      | none => rw [hk] at h; cases h
      | some t =>
        rw [hk] at h
        exact cachePresTrans (hnode s k true t hk) (ihl t s' h)

/-- Calling `cacheMe(recursive=True)` sets the caching flag on the entire transitive
`requires` closure. -/
theorem cacheMe_closure_all (fuel : Nat) :
    (∀ s n s', cacheMe fuel s n true = some s' → ∀ m, ReqReach s n m →
      (s'.node m).cached = true) ∧
    (∀ l s s', cacheMeList fuel s l = some s' → ∀ k, k ∈ l → ∀ m, ReqReach s k m →
      (s'.node m).cached = true) := by
  induction fuel with
  | zero =>
    constructor
    · intro s n s' h
      simp [cacheMe] at h
    · intro l
      induction l with
      | nil =>
        intro s s' h k hk
        simp at hk
      | cons k0 rest ih =>
        intro s s' h
        rw [cacheMeList] at h
        simp [cacheMe] at h
  | succ fuel ih =>
    have hnode : ∀ s n s', cacheMe (fuel + 1) s n true = some s' → ∀ m, ReqReach s n m →
        (s'.node m).cached = true := by
      intro s n s' h m hr
      rw [cacheMe_succ, if_pos rfl] at h
      have hreq1 : ∀ m2, ((setCachedFlag s n true).node m2).requiredVariables =
          (s.node m2).requiredVariables := fun m2 => ((cachePres_setTrue s n).2 m2).2.2.1
      cases hr with
      | refl =>
        have hset : ((setCachedFlag s n true).node n).cached = true := by
          simp [setCachedFlag, node_updateNode_self]
        exact (((cachePres_all fuel).2 _ _ _ h).2 n).2.2.2.2 hset
      | cons hmem hr2 =>
        rename_i c
        refine ih.2 _ _ _ h c ?_ m (ReqReach_of_reqEq hreq1 hr2)
        rw [hreq1]
        exact hmem
    refine ⟨hnode, ?_⟩
    intro l
    induction l with
    | nil =>
      intro s s' h k hk
      simp at hk
    | cons k0 rest ihl =>
      intro s s' h k hk m hr
      rw [cacheMeList] at h
      cases hkeq : cacheMe (fuel + 1) s k0 true with
      | none => rw [hkeq] at h; cases h
      | some t =>
        rw [hkeq] at h
        rcases List.mem_cons.mp hk with h1 | h1
        · subst h1
          exact (((cachePres_all (fuel + 1)).2 _ _ _ h).2 m).2.2.2.2 (hnode s k t hkeq m hr)
        · have hreqt : ∀ m2, (t.node m2).requiredVariables = (s.node m2).requiredVariables :=
            fun m2 => (((cachePres_all (fuel + 1)).1 s k0 true t hkeq).2 m2).2.2.1
          exact ihl t s' h k h1 m (ReqReach_of_reqEq hreqt hr)

theorem dontCacheMe_false (st : GraphState) (k : Nat) :
    dontCacheMe st k false = setCachedFlag st k false := by
  rw [dontCacheMe]

/-- The `for var in self.requiredVariables` pass of `dontCacheMe` with
`recursive=False` calls: every listed node gets its flag cleared, every
other node is untouched. -/
theorem foldDontCache_spec (l : List Nat) :
    ∀ s : GraphState,
      (∀ m, m ∈ l → ((l.foldl (fun st k => dontCacheMe st k false) s).node m).cached = false) ∧
      (∀ m, m ∉ l → (l.foldl (fun st k => dontCacheMe st k false) s).node m = s.node m) := by
  induction l with
  | nil =>
    intro s
    exact ⟨fun m hm => absurd hm (List.not_mem_nil m), fun m _ => rfl⟩
  | cons k rest ih =>
    intro s
    rw [List.foldl_cons, dontCacheMe_false]
    constructor
    · intro m hm
      rcases List.mem_cons.mp hm with h1 | h1
      · subst h1
        by_cases h2 : m ∈ rest
        · exact (ih _).1 m h2
        · rw [(ih _).2 m h2]
          simp [setCachedFlag, node_updateNode_self]
      · exact (ih _).1 m h1
    · intro m hm
      have hm1 : m ≠ k := fun h => hm (h ▸ List.mem_cons_self k rest)
      have hm2 : m ∉ rest := fun h => hm (List.mem_cons_of_mem _ h)
      rw [(ih _).2 m hm2]
      exact node_updateNode_other s k m _ hm1

/-! ## Value-slot updates do not disturb flags or edges -/

theorem node_setValueSlot_stale (s : GraphState) (n : Nat) (v : Option Val) (m : Nat) :
    ((setValueSlot s n v).node m).stale = (s.node m).stale := by
  by_cases h : m = n
  · subst h
    simp [setValueSlot, node_updateNode_self]
  · simp [setValueSlot, node_updateNode_other s n m _ h]

theorem node_setValueSlot_subs (s : GraphState) (n : Nat) (v : Option Val) (m : Nat) :
    ((setValueSlot s n v).node m).subscribedVariables =
      (s.node m).subscribedVariables := by
  by_cases h : m = n
  · subst h
    simp [setValueSlot, node_updateNode_self]
  · simp [setValueSlot, node_updateNode_other s n m _ h]

theorem staleClosed_setValueSlot {s : GraphState} (n : Nat) (v : Option Val)
    (h : StaleClosed s) : StaleClosed (setValueSlot s n v) := by
  intro a b ha hb
  rw [node_setValueSlot_stale] at ha ⊢
  rw [node_setValueSlot_subs] at hb
  exact h a b ha hb

theorem reachO_setValueSlot {s : GraphState} {n : Nat} {v : Option Val} {x y : Nat}
    (h : ReachO s x y) : ReachO (setValueSlot s n v) x y := by
  refine ReachO_of_memIff (fun m b => ?_) h
  rw [node_setValueSlot_subs]

theorem reach_setValueSlot {s : GraphState} {n : Nat} {v : Option Val} {x y : Nat} :
    Reach (setValueSlot s n v) x y ↔ Reach s x y := by
  constructor
  · rintro ⟨b, hb, hr⟩
    rw [node_setValueSlot_subs] at hb
    exact ⟨b, hb, ReachO_of_memIff (fun m c => (node_setValueSlot_subs s n v m) ▸ Iff.rfl) hr⟩
  · rintro ⟨b, hb, hr⟩
    refine ⟨b, ?_, reachO_setValueSlot hr⟩
    rw [node_setValueSlot_subs]
    exact hb

/-! ## Concrete fixtures for witnesses -/

/-- Three-node chain `0 → 1 → 2` (each node's dependent listed through a
live weak reference), all fresh, all caching, `requires` edges mirroring
the `requiredBy` edges. -/
def exChain : GraphState := mkGraph [
  ⟨false, true, some 3, [], [some 1]⟩,
  ⟨false, true, some 7, [0], [some 2]⟩,
  ⟨false, true, some 9, [1], []⟩]

theorem exChain_node_ge (a : Nat) : exChain.node (a + 3) = default := rfl

theorem exChain_staleClosed : StaleClosed exChain := by
  intro a b ha hb
  match a with
  | 0 => exact absurd ha (by decide)
  | 1 => exact absurd ha (by decide)
  | 2 => exact absurd ha (by decide)
  | a + 3 =>
    rw [exChain_node_ge] at ha
    exact absurd ha (by decide)

theorem exChain_reachO_le {x y : Nat} (h : ReachO exChain x y) : x ≤ y := by
  induction h with
  | refl a => exact Nat.le_refl a
  | @cons a c m hmem hr ih =>
    have hac : a < c := by
      match a with
      | 0 =>
        have he : (exChain.node 0).subscribedVariables = [some 1] := rfl
        rw [he] at hmem
        simp at hmem
        omega
      | 1 =>
        have he : (exChain.node 1).subscribedVariables = [some 2] := rfl
        rw [he] at hmem
        simp at hmem
        omega
      | 2 =>
        have he : (exChain.node 2).subscribedVariables = [] := rfl
        rw [he] at hmem
        cases hmem
      | a + 3 =>
        rw [exChain_node_ge] at hmem
        cases hmem
    omega

theorem exChain_noCycle : ¬ Reach exChain 0 0 := by
  rintro ⟨b, hmem, hr⟩
  have he : (exChain.node 0).subscribedVariables = [some 1] := rfl
  rw [he] at hmem
  simp at hmem
  subst hmem
  exact absurd (exChain_reachO_le hr) (by decide)

theorem exChain_reach02 : Reach exChain 0 2 :=
  ⟨1, by decide, ReachO.cons (by decide) (ReachO.refl 2)⟩

/-! ## Claim theorems -/

/-- C1 — Propagation completeness: from any stale-closed graph state (the
invariant the engine maintains; spec §3 invariant 3) with no live
dependency cycle through the mutated leaf, after `setValue(leaf, v)`
returns, every node reachable from `leaf` along `requiredBy` edges whose
weak reference still resolves has its dirty flag set (`stale = true`),
before any subsequent evaluation. -/
theorem setValue_propagation_complete (fuel : Nat) (s : GraphState) (leaf : Nat) (v : Val)
    (s' : GraphState) (hclosed : StaleClosed s) (hacyc : ¬ Reach s leaf leaf)
    (h : setValue fuel s leaf v = some s') :
    ∀ m, Reach s leaf m → (s'.node m).stale = true := by
  intro m hr
  have hmn : m ≠ leaf := fun he => hacyc (he ▸ hr)
  rw [setValue] at h
  have hclosed' : StaleClosed (setValueSlot s leaf (some v)) :=
    staleClosed_setValueSlot leaf (some v) hclosed
  have hr' : Reach (setValueSlot s leaf (some v)) leaf m := reach_setValueSlot.mpr hr
  exact markFresh_reach_stale hclosed' h m hr' hmn

theorem setValue_propagation_complete_witness :
    (setValue 5 exChain 0 7).map (fun t => (t.node 2).stale) = some true := by
  cases h : setValue 5 exChain 0 7 with
  | none =>
    have hs : (setValue 5 exChain 0 7).isSome = true := by decide
    rw [h] at hs
    simp at hs
  | some t =>
    have hst := setValue_propagation_complete 5 exChain 0 7 t
      exChain_staleClosed exChain_noCycle h 2 exChain_reach02
    simp [hst]

/-- Two-node fixture for C2: `0 → 1` with the dependent `1` currently
fresh. -/
def exC2 : GraphState := mkGraph [
  ⟨true, true, some 1, [], [some 1]⟩,
  ⟨false, true, some 2, [0], []⟩]

/-- C2 — counterexample: `_markFresh(0)` does not leave the dirty flag of
every other node unchanged: in `exC2` the dependent node `1` is fresh
beforehand and stale afterwards, because `_markFresh` (line 672) calls
`__markStale`, which propagates staleness into the live dependents. -/
theorem markFresh_recursion_counterexample :
    (markFresh 2 exC2 0).map (fun t => (t.node 1).stale) = some true ∧
    (exC2.node 1).stale = false := by
  constructor
  · decide
  · decide

/-- C2 — amended: `_markFresh(n)` clears only `n`'s dirty flag — no other
node is ever marked fresh by it, and value slots, caching flags and
`requires` lists are untouched everywhere — but it does not leave the rest
of the graph unchanged: it triggers a staleness propagation that leaves
every node referenced by a live weak reference of `n` stale. -/
theorem markFresh_only_self_fresh (fuel : Nat) (s : GraphState) (n : Nat) (s' : GraphState)
    (h : markFresh fuel s n = some s') :
    (∀ m, m ≠ n → (s.node m).stale = true → (s'.node m).stale = true) ∧
    (∀ b, some b ∈ (s.node n).subscribedVariables → (s'.node b).stale = true) ∧
    (∀ m, (s'.node m).value = (s.node m).value ∧
      (s'.node m).cached = (s.node m).cached ∧
      (s'.node m).requiredVariables = (s.node m).requiredVariables) :=
  ⟨markFresh_mono_other h, markFresh_subs_stale h, markFresh_frame h⟩

theorem markFresh_only_self_fresh_witness :
    (markFresh 2 exC2 0).map (fun t => ((t.node 1).stale, (t.node 1).cached)) =
      some (true, true) := by
  cases h : markFresh 2 exC2 0 with
  | none =>
    have hs : (markFresh 2 exC2 0).isSome = true := by decide
    rw [h] at hs
    simp at hs
  | some t =>
    obtain ⟨h1, h2, h3⟩ := markFresh_only_self_fresh 2 exC2 0 t h
    have ha : (t.node 1).stale = true := h2 1 (by decide)
    have hb : (t.node 1).cached = true := by
      rw [(h3 1).2.1]
      decide
    simp [ha, hb]

/-- C10 — in-place element mutation (`__setitem__` / `put`) propagates like
`setValue`: from a stale-closed state with no live dependency cycle through
`n`, after the mutation the node itself is fresh (`stale = false`) and
every node reachable from `n` through live `requiredBy` references is
stale, before the call returns. -/
theorem setitem_marks_dependents (fuel : Nat) (s : GraphState) (n : Nat) (v : Val)
    (s' : GraphState) (hclosed : StaleClosed s) (hacyc : ¬ Reach s n n)
    (h : setitemOp fuel s n v = some s') :
    (s'.node n).stale = false ∧ ∀ m, Reach s n m → (s'.node m).stale = true := by
  rw [setitemOp] at h
  have hclosed' : StaleClosed (setValueSlot s n (some v)) :=
    staleClosed_setValueSlot n (some v) hclosed
  constructor
  · refine markFresh_self_fresh h ?_
    intro hr
    exact hacyc (reach_setValueSlot.mp hr)
  · intro m hr
    have hmn : m ≠ n := fun he => hacyc (he ▸ hr)
    exact markFresh_reach_stale hclosed' h m (reach_setValueSlot.mpr hr) hmn

theorem setitem_marks_dependents_witness :
    (setitemOp 5 exChain 0 7).map (fun t => ((t.node 0).stale, (t.node 1).stale)) =
      some (false, true) := by
  cases h : setitemOp 5 exChain 0 7 with
  | none =>
    have hs : (setitemOp 5 exChain 0 7).isSome = true := by decide
    rw [h] at hs
    simp at hs
  | some t =>
    obtain ⟨h0, h1⟩ := setitem_marks_dependents 5 exChain 0 7 t
      exChain_staleClosed exChain_noCycle h
    have hb : (t.node 1).stale = true :=
      h1 1 ⟨1, by decide, ReachO.refl 1⟩
    simp [h0, hb]

/-- Two-node fixture for C6: node `0` is already stale. -/
def exC6 : GraphState := mkGraph [
  ⟨true, true, some 1, [], [some 1]⟩,
  ⟨false, true, some 2, [0], []⟩]

/-- C6 — `_markStale` termination and no-revisit: on any finite
well-formed graph (acyclicity not even needed — the already-stale check
breaks cycles), fuel `freshCount s + 1` suffices, so the propagation
terminates; and applied to a node whose dirty flag is already set it
returns the state unchanged immediately, visiting no dependent. -/
theorem markStale_terminates_thm (s : GraphState) (n : Nat) (fuel : Nat) :
    (WF s = true → n < s.numNodes →
      (markStaleFuel (freshCount s + 1) s n).isSome = true) ∧
    ((s.node n).stale = true → markStaleFuel (fuel + 1) s n = some s) := by
  constructor
  · intro hwf hn
    exact (markStale_fuel_sufficient (freshCount s + 1)).1 s n hwf hn (Nat.lt_succ_self _)
  · intro hst
    rw [markStaleFuel_succ, if_pos hst]

theorem markStale_terminates_witness :
    (markStaleFuel (freshCount exC6 + 1) exC6 0).isSome = true ∧
    markStaleFuel 4 exC6 0 = some exC6 :=
  ⟨(markStale_terminates_thm exC6 0 3).1 (by decide) (by decide),
   (markStale_terminates_thm exC6 0 3).2 (by decide)⟩

/-- Fixture for C3: a single node with caching disabled (`_cached = False`)
that is fresh and has a value in its slot — so only the `not
self._isCached()` disjunct of the `getValue` branch condition fires. -/
def exC3 : GraphState := mkGraph [⟨false, false, some 5, [], []⟩]

/-- C3 — caching toggle: with the global `_cacheAlways` switch off and
caching disabled on the node (`_cached = False` via `dontCacheMe`), every
`getValue` call runs `_calcValue` — even when the node is fresh and a value
sits in the slot — and afterwards stores `None` in the cached-value slot. -/
theorem evaluate_uncached_recomputes (cfg : CacheConfig) (fuel : Nat) (calcV : CalcFn)
    (s : GraphState) (n : Nat) (v : Val) (t s2 : GraphState)
    (hcfg : cfg.cacheAlways = false)
    (hc : (s.node n).cached = false)
    (hcalc : calcV s n = CalcResult.ok v t)
    (ht : (t.node n).cached = false)
    (hmf : markFresh fuel (setValueSlot t n none) n = some s2) :
    getValue cfg fuel calcV s n = EvalResult.ok v s2 ∧ (s2.node n).value = none := by
  have hic : isCached cfg (s.node n) = false := by simp [isCached, hcfg, hc]
  have hic2 : isCached cfg (t.node n) = false := by simp [isCached, hcfg, ht]
  constructor
  · simp only [getValue, hic, hcalc, hic2, Bool.not_false, Bool.or_true, Bool.true_or,
      if_true, if_false, Bool.false_eq_true, hmf]
  · have hval := (markFresh_frame hmf n).1
    rw [hval]
    simp [setValueSlot, node_updateNode_self]

theorem evaluate_uncached_recomputes_witness :
    (match getValue ⟨false, false⟩ 2 (fun st _ => CalcResult.ok 42 st) exC3 0 with
     | EvalResult.ok v t => some (v, (t.node 0).value)
     | EvalResult.raise _ => none
     | EvalResult.fuelOut => none) = some (42, none) := by
  cases hmf : markFresh 2 (setValueSlot exC3 0 none) 0 with
  | none =>
    have hs : (markFresh 2 (setValueSlot exC3 0 none) 0).isSome = true := by decide
    rw [hmf] at hs
    simp at hs
  | some s2 =>
    obtain ⟨h1, h2⟩ := evaluate_uncached_recomputes ⟨false, false⟩ 2
      (fun st _ => CalcResult.ok 42 st) exC3 0 42 exC3 s2 rfl (by decide) rfl (by decide) hmf
    rw [h1]
    show some (42, (s2.node 0).value) = some (42, none)
    rw [h2]

/-- Fixture for C4: a single stale node. -/
def exC4 : GraphState := mkGraph [⟨true, true, some 5, [], []⟩]

/-- C4 — evaluation-error atomicity: if the node is dirty and the recompute
step (`self._calcValue()`) raises, leaving the node's own record untouched,
then the error propagates out of `getValue` with no further state change —
in particular nothing is cached, `_markFresh` is never reached, the dirty
flag stays set — and a retry enters the recompute branch again. -/
theorem evaluate_error_atomic (cfg : CacheConfig) (fuel : Nat) (calcV : CalcFn)
    (s t : GraphState) (n : Nat)
    (hstale : (s.node n).stale = true)
    (hcalc : calcV s n = CalcResult.raise t)
    (hpres : t.node n = s.node n) :
    getValue cfg fuel calcV s n = EvalResult.raise t ∧
    (t.node n).stale = true ∧
    (∀ calcV2 u, calcV2 t n = CalcResult.raise u →
      getValue cfg fuel calcV2 t n = EvalResult.raise u) := by
  refine ⟨?_, ?_, ?_⟩
  · simp only [getValue, hstale, Bool.true_or, if_true, hcalc]
  · rw [hpres]
    exact hstale
  · intro calcV2 u hc2
    have hstale2 : (t.node n).stale = true := by rw [hpres]; exact hstale
    simp only [getValue, hstale2, Bool.true_or, if_true, hc2]

theorem evaluate_error_atomic_witness :
    getValue ⟨false, false⟩ 2 (fun st _ => CalcResult.raise st) exC4 0 =
      EvalResult.raise exC4 ∧
    (exC4.node 0).stale = true :=
  ⟨(evaluate_error_atomic ⟨false, false⟩ 2 (fun st _ => CalcResult.raise st)
      exC4 exC4 0 (by decide) rfl rfl).1,
   (evaluate_error_atomic ⟨false, false⟩ 2 (fun st _ => CalcResult.raise st)
      exC4 exC4 0 (by decide) rfl rfl).2.1⟩

/-- C8 — `liveDependents` filtering and compaction:
`getSubscribedVariables` returns exactly the entries of the node's
`subscribedVariables` whose weak references still resolve, stores that
compacted list back into the node (removing every dead entry), leaves
every other node and the node's remaining attributes untouched, and no
reclaimed (dead) reference appears in the result. -/
theorem liveDependents_spec (s : GraphState) (n : Nat) :
    (getSubscribedVariables s n).1 =
      (s.node n).subscribedVariables.filter (fun w => w.isSome) ∧
    ((getSubscribedVariables s n).2.node n).subscribedVariables =
      (s.node n).subscribedVariables.filter (fun w => w.isSome) ∧
    (∀ m, m ≠ n → (getSubscribedVariables s n).2.node m = s.node m) ∧
    (∀ w ∈ (getSubscribedVariables s n).1, w.isSome = true) ∧
    (∀ b : Nat, some b ∈ (getSubscribedVariables s n).1 ↔
      some b ∈ (s.node n).subscribedVariables) ∧
    ((getSubscribedVariables s n).2.node n).stale = (s.node n).stale ∧
    ((getSubscribedVariables s n).2.node n).value = (s.node n).value ∧
    ((getSubscribedVariables s n).2.node n).cached = (s.node n).cached := by
  refine ⟨rfl, ?_, ?_, ?_, ?_, ?_, ?_, ?_⟩
  · simp [getSubscribedVariables, node_updateNode_self]
  · intro m hm
    simp [getSubscribedVariables, node_updateNode_other s n m _ hm]
  · intro w hw
    rw [getSubscribed_fst] at hw
    exact (List.mem_filter.mp hw).2
  · intro b
    exact mem_getSubscribed_fst
  · simp [getSubscribedVariables, node_updateNode_self]
  · simp [getSubscribedVariables, node_updateNode_self]
  · simp [getSubscribedVariables, node_updateNode_self]

theorem setCachedFlag_required (s : GraphState) (n : Nat) (b : Bool) (m : Nat) :
    ((setCachedFlag s n b).node m).requiredVariables = (s.node m).requiredVariables := by
  by_cases h : m = n
  · subst h
    simp [setCachedFlag, node_updateNode_self]
  · simp [setCachedFlag, node_updateNode_other s n m _ h]

theorem dontCacheMe_true (s : GraphState) (n : Nat) :
    dontCacheMe s n true =
      ((setCachedFlag s n false).node n).requiredVariables.foldl
        (fun st m => dontCacheMe st m false) (setCachedFlag s n false) := by
  rw [dontCacheMe]

/-- C9 — recursive cache-disabling stops at depth one, recursive
cache-enabling does not: `dontCacheMe(recursive=True)` clears the caching
flag of the node and its direct `requiredVariables` only — every node that
is neither the node itself nor a direct operand keeps its entire record —
whereas `cacheMe(recursive=True)` sets the flag on the whole transitive
`requires` closure. -/
theorem dontCacheMe_depth_one (fuel : Nat) (s : GraphState) (n : Nat) (s' : GraphState)
    (h : cacheMe fuel s n true = some s') :
    ((dontCacheMe s n true).node n).cached = false ∧
    (∀ m, m ∈ (s.node n).requiredVariables →
      ((dontCacheMe s n true).node m).cached = false) ∧
    (∀ m, m ≠ n → m ∉ (s.node n).requiredVariables →
      (dontCacheMe s n true).node m = s.node m) ∧
    (∀ m, ReqReach s n m → (s'.node m).cached = true) := by
  rw [dontCacheMe_true, setCachedFlag_required]
  refine ⟨?_, ?_, ?_, fun m hr => (cacheMe_closure_all fuel).1 s n s' h m hr⟩
  · by_cases hn : n ∈ (s.node n).requiredVariables
    · exact (foldDontCache_spec _ _).1 n hn
    · rw [(foldDontCache_spec _ _).2 n hn]
      simp [setCachedFlag, node_updateNode_self]
  · intro m hm
    exact (foldDontCache_spec _ _).1 m hm
  · intro m hm1 hm2
    rw [(foldDontCache_spec _ _).2 m hm2]
    exact node_updateNode_other s n m _ hm1

/-- Fixture for C9: a `requires` chain `0 requires 1 requires 2`, all
caching enabled. -/
def exC9 : GraphState := mkGraph [
  ⟨false, true, some 1, [1], []⟩,
  ⟨false, true, some 2, [2], []⟩,
  ⟨false, true, some 3, [], []⟩]

theorem dontCacheMe_depth_one_witness :
    ((dontCacheMe exC9 0 true).node 1).cached = false ∧
    (dontCacheMe exC9 0 true).node 2 = exC9.node 2 ∧
    (match cacheMe 3 exC9 0 true with
     | some t => (t.node 2).cached
     | none => false) = true := by
  cases hk : cacheMe 3 exC9 0 true with
  | none =>
    have hs : (cacheMe 3 exC9 0 true).isSome = true := by decide
    rw [hk] at hs
    simp at hs
  | some t =>
    obtain ⟨d1, d2, d3, c⟩ := dontCacheMe_depth_one 3 exC9 0 t hk
    refine ⟨d2 1 (by decide), d3 2 (by decide) (by decide), ?_⟩
    exact c 2 (@ReqReach.cons exC9 0 1 2 (by decide)
      (@ReqReach.cons exC9 1 2 2 (by decide) (ReqReach.refl 2)))

/-! ## Construction-layer lemmas -/

theorem node_updC_self (st : ConsState) (i : Nat) (f : CNode → CNode) :
    (updC st i f).node i = f (st.node i) := by
  simp [updC]

theorem node_updC_other (st : ConsState) (i m : Nat) (f : CNode → CNode) (h : m ≠ i) :
    (updC st i f).node m = st.node m := by
  simp [updC, h]

theorem node_requiresEdge_self {st : ConsState} {i j : Nat} (hij : i ≠ j) :
    (requiresEdge st i j).node i =
      { st.node i with
        requiredVariables := (st.node i).requiredVariables ++ [j], stale := true } := by
  simp [requiresEdge, node_updC_self, node_updC_other _ _ _ _ hij]

theorem node_requiresEdge_other {st : ConsState} {i j m : Nat} (hmi : m ≠ i) (hmj : m ≠ j) :
    (requiresEdge st i j).node m = st.node m := by
  simp [requiresEdge, node_updC_other _ _ _ _ hmi, node_updC_other _ _ _ _ hmj]

theorem allocC_fst (st : ConsState) (c : CNode) : (allocC st c).1 = st.numNodes := rfl

theorem node_allocC_new (st : ConsState) (c : CNode) :
    ((allocC st c).2).node st.numNodes = c := by
  simp [allocC]

theorem node_allocC_old (st : ConsState) (c : CNode) (m : Nat) (h : m ≠ st.numNodes) :
    ((allocC st c).2).node m = st.node m := by
  simp [allocC, h]

/-- The operator node built by `mkOperatorNode` over two existing operands:
it sits at the next free identifier, carries the declared `opShape`, lists
exactly `[left, right]` as its operands, and is stale at birth. -/
theorem mkOperatorNode_binary (st : ConsState) (a b : Nat) (sh : Shape)
    (ha : a < st.numNodes) (hb : b < st.numNodes) :
    (mkOperatorNode st [a, b] sh).1 = st.numNodes ∧
    ((mkOperatorNode st [a, b] sh).2).node st.numNodes =
      ⟨sh, false, [a, b], [], true⟩ := by
  have hna : st.numNodes ≠ a := ha.ne'
  have hnb : st.numNodes ≠ b := hb.ne'
  refine ⟨rfl, ?_⟩
  simp only [mkOperatorNode, List.foldl_cons, List.foldl_nil, allocC_fst]
  rw [node_requiresEdge_self hnb]
  rw [node_requiresEdge_self hna]
  rw [node_allocC_new]
  simp

theorem mkOperatorNode_untouched (st : ConsState) (a b m : Nat) (sh : Shape)
    (hm : m ≠ st.numNodes) (hma : m ≠ a) (hmb : m ≠ b) :
    ((mkOperatorNode st [a, b] sh).2).node m = st.node m := by
  simp only [mkOperatorNode, List.foldl_cons, List.foldl_nil, allocC_fst]
  rw [node_requiresEdge_other hm hmb, node_requiresEdge_other hm hma,
    node_allocC_old st _ m hm]

theorem node_requiresEdge_operand {st : ConsState} {i j : Nat} (hij : i ≠ j) :
    (requiresEdge st i j).node j =
      { st.node j with
        subscribedVariables := (st.node j).subscribedVariables ++ [i] } := by
  have hji : j ≠ i := fun h => hij h.symm
  simp [requiresEdge, node_updC_self, node_updC_other _ _ _ _ hji]

/-- The right-hand operand of `mkOperatorNode` gains exactly one dependent
entry (the new node), everything else about it unchanged. -/
theorem mkOperatorNode_operand2 (st : ConsState) (a b : Nat) (sh : Shape)
    (hb : b < st.numNodes) (hab : a ≠ b) :
    ((mkOperatorNode st [a, b] sh).2).node b =
      { st.node b with
        subscribedVariables := (st.node b).subscribedVariables ++ [st.numNodes] } := by
  have hbn : b ≠ st.numNodes := hb.ne
  have hba : b ≠ a := fun h => hab h.symm
  have hnb : st.numNodes ≠ b := hb.ne'
  simp only [mkOperatorNode, List.foldl_cons, List.foldl_nil, allocC_fst]
  rw [node_requiresEdge_operand hnb, node_requiresEdge_other hbn hba,
    node_allocC_old st _ b hbn]

theorem mkConstant_fst (st : ConsState) (sh : Shape) :
    (mkConstant st sh).1 = st.numNodes := rfl

theorem mkConstant_numNodes (st : ConsState) (sh : Shape) :
    ((mkConstant st sh).2).numNodes = st.numNodes + 1 := rfl

theorem node_mkConstant_new (st : ConsState) (sh : Shape) :
    ((mkConstant st sh).2).node st.numNodes = ⟨sh, true, [], [], false⟩ :=
  node_allocC_new st _

theorem node_mkConstant_old (st : ConsState) (sh : Shape) (m : Nat) (h : m ≠ st.numNodes) :
    ((mkConstant st sh).2).node m = st.node m :=
  node_allocC_old st _ m h

/-- C5 — broadcast correctness and construction-time shape failure: with
both operands existing nodes, combining a shape-`(3,)` node with a
shape-`()` node builds the operator node (at the next free identifier)
with declared result shape `(3,)`; combining shape `(3,)` with shape
`(4,)` makes `_BinaryOperatorVariable` return `NotImplemented` (modelled
as `none`) with the arena returned exactly as it was — no node allocated
and no dependency edge registered.  (The spec names this failure
`ShapeMismatch`.) -/
theorem binaryOp_broadcast (st : ConsState) (a b : Nat)
    (ha : a < st.numNodes) (hb : b < st.numNodes)
    (hsa : (st.node a).shape = [3]) :
    ((st.node b).shape = [] →
      (binaryOperatorVariable st a (OperandArg.node b)).1 = some st.numNodes ∧
      (((binaryOperatorVariable st a (OperandArg.node b)).2).node st.numNodes).shape
        = [3]) ∧
    ((st.node b).shape = [4] →
      binaryOperatorVariable st a (OperandArg.node b) = (none, st)) := by
  constructor
  · intro hsb
    have hbc : broadcastShape (st.node a).shape (st.node b).shape = some [3] := by
      rw [hsa, hsb]
      decide
    constructor
    · simp only [binaryOperatorVariable, hbc, mkOperatorNode, allocC_fst]
    · simp only [binaryOperatorVariable, hbc]
      rw [(mkOperatorNode_binary st a b [3] ha hb).2]
  · intro hsb
    have hbc : broadcastShape (st.node a).shape (st.node b).shape = none := by
      rw [hsa, hsb]
      decide
    simp only [binaryOperatorVariable, hbc]

/-- C7 — binary-operator operand list: the new expression node's
`requiredVariables` is exactly the two operands in order `[left, right]`;
when the right-hand operand is not a node it is first wrapped as an
implicit `_Constant` leaf (allocated at the next free identifier), and
that wrapper occupies the second slot. -/
theorem binaryOp_operand_list (st : ConsState) (a j : Nat) (sh opSh opSh2 : Shape)
    (ha : a < st.numNodes) (hj : j < st.numNodes)
    (hbc : broadcastShape (st.node a).shape (st.node j).shape = some opSh)
    (hbc2 : broadcastShape (st.node a).shape sh = some opSh2) :
    ((((binaryOperatorVariable st a (OperandArg.node j)).2).node
        st.numNodes).requiredVariables = [a, j]) ∧
    ((binaryOperatorVariable st a (OperandArg.raw sh)).1 = some (st.numNodes + 1)) ∧
    ((((binaryOperatorVariable st a (OperandArg.raw sh)).2).node
        (st.numNodes + 1)).requiredVariables = [a, st.numNodes]) ∧
    ((((binaryOperatorVariable st a (OperandArg.raw sh)).2).node
        st.numNodes).isConstant = true) := by
  have hsc : broadcastShape (((mkConstant st sh).2).node a).shape
      (((mkConstant st sh).2).node st.numNodes).shape = some opSh2 := by
    rw [node_mkConstant_old st sh a ha.ne, node_mkConstant_new]
    exact hbc2
  refine ⟨?_, ?_, ?_, ?_⟩
  · simp only [binaryOperatorVariable, hbc]
    rw [(mkOperatorNode_binary st a j opSh ha hj).2]
  · simp only [binaryOperatorVariable, mkConstant_fst, hsc, mkOperatorNode, allocC_fst,
      mkConstant_numNodes]
  · simp only [binaryOperatorVariable, mkConstant_fst, hsc]
    have h2 := (mkOperatorNode_binary ((mkConstant st sh).2) a st.numNodes opSh2
      (by rw [mkConstant_numNodes]; omega) (by rw [mkConstant_numNodes]; omega)).2
    rw [mkConstant_numNodes] at h2
    rw [h2]
  · simp only [binaryOperatorVariable, mkConstant_fst, hsc]
    have h2 := mkOperatorNode_operand2 ((mkConstant st sh).2) a st.numNodes opSh2
      (by rw [mkConstant_numNodes]; omega) ha.ne
    rw [h2, node_mkConstant_new]

/-- Construction fixture: existing leaves of shapes `(3,)`, `()` and `(4,)`. -/
def exCons : ConsState :=
  ⟨3, fun n => [(⟨[3], false, [], [], false⟩ : CNode),
    ⟨[], false, [], [], false⟩, ⟨[4], false, [], [], false⟩].getD n default⟩

theorem binaryOp_broadcast_witness :
    (binaryOperatorVariable exCons 0 (OperandArg.node 1)).1 = some 3 ∧
    (((binaryOperatorVariable exCons 0 (OperandArg.node 1)).2).node 3).shape = [3] ∧
    binaryOperatorVariable exCons 0 (OperandArg.node 2) = (none, exCons) := by
  have h := binaryOp_broadcast exCons 0 1 (by decide) (by decide) (by decide)
  have h2 := binaryOp_broadcast exCons 0 2 (by decide) (by decide) (by decide)
  exact ⟨(h.1 (by decide)).1, (h.1 (by decide)).2, h2.2 (by decide)⟩

theorem binaryOp_operand_list_witness :
    (((binaryOperatorVariable exCons 0 (OperandArg.node 1)).2).node 3).requiredVariables
      = [0, 1] ∧
    (binaryOperatorVariable exCons 0 (OperandArg.raw [])).1 = some 4 ∧
    (((binaryOperatorVariable exCons 0 (OperandArg.raw [])).2).node 4).requiredVariables
      = [0, 3] ∧
    (((binaryOperatorVariable exCons 0 (OperandArg.raw [])).2).node 3).isConstant = true := by
  have h := binaryOp_operand_list exCons 0 1 [] [3] [3] (by decide) (by decide)
    (by decide) (by decide)
  exact ⟨h.1, h.2.1, h.2.2.1, h.2.2.2⟩
